import Mathlib

/-!
Verification of the streaming SSE decoder in
`src/frontend/src/api/knowledgebase.ts` (`queryKnowledgeBaseStream`).

JavaScript strings are modelled as lists of Unicode code points
(`JsStr := List Nat`); byte chunks are lists of byte values.  The
`TextDecoder` used by the source is modelled as the WHATWG incremental
UTF-8 decoder (a per-byte state machine, including the BOM-seen flag of
the default configuration of `TextDecoder`), so that decoding a stream of
chunks is a fold of a per-byte step.  Callback invocations are modelled
as a list of events in invocation order.
-/

namespace KnowledgeBase

/-- JS strings are modelled as lists of Unicode code points. -/
abbrev JsStr := List Nat

/-- Code points of a Lean string literal; used to write JS string constants
(and, for ASCII literals, byte sequences). -/
def str (s : String) : JsStr := s.toList.map Char.toNat

/-- State of the WHATWG incremental UTF-8 decoder: the partially assembled
code point, how many continuation bytes are still expected, how many were
already consumed, and the admissible range for the next continuation byte. -/
structure Utf8State where
  codePoint : Nat
  bytesNeeded : Nat
  bytesSeen : Nat
  lowerBoundary : Nat
  upperBoundary : Nat
deriving Repr, DecidableEq

/-- Initial UTF-8 decoder state. -/
def Utf8State.init : Utf8State := ⟨0, 0, 0, 0x80, 0xBF⟩

/-- Handle one byte in the initial (no pending sequence) state, per the
WHATWG UTF-8 decoder.  Masking with `& 0x1F`, `& 0x0F`, `& 0x07` is written
as `% 32`, `% 16`, `% 8`, which agrees on the lead-byte ranges involved. -/
def utf8Start (b : Nat) : List Nat × Utf8State :=
  if b ≤ 0x7F then ([b], Utf8State.init)
  else if 0xC2 ≤ b ∧ b ≤ 0xDF then ([], ⟨b % 32, 1, 0, 0x80, 0xBF⟩)
  else if 0xE0 ≤ b ∧ b ≤ 0xEF then
    ([], ⟨b % 16, 2, 0, if b = 0xE0 then 0xA0 else 0x80,
          if b = 0xED then 0x9F else 0xBF⟩)
  else if 0xF0 ≤ b ∧ b ≤ 0xF4 then
    ([], ⟨b % 8, 3, 0, if b = 0xF0 then 0x90 else 0x80,
          if b = 0xF4 then 0x8F else 0xBF⟩)
  else ([0xFFFD], Utf8State.init)

/-- One byte of the WHATWG UTF-8 decoder.  On a continuation byte outside
the admissible range the decoder emits U+FFFD and reprocesses the byte in
the initial state.  `codePoint << 6 | (b & 0x3F)` is written arithmetically
as `codePoint * 64 + b % 64`, which agrees on the continuation range. -/
def utf8Step (s : Utf8State) (b : Nat) : List Nat × Utf8State :=
  if s.bytesNeeded = 0 then utf8Start b
  else if s.lowerBoundary ≤ b ∧ b ≤ s.upperBoundary then
    let cp := s.codePoint * 64 + b % 64
    if s.bytesSeen + 1 = s.bytesNeeded then ([cp], Utf8State.init)
    else ([], ⟨cp, s.bytesNeeded, s.bytesSeen + 1, 0x80, 0xBF⟩)
  else (0xFFFD :: (utf8Start b).1, (utf8Start b).2)

/-- State of a `new TextDecoder()`: UTF-8 state plus the BOM-seen flag
(the default decoder drops a leading U+FEFF). -/
structure TextDecoderState where
  utf8 : Utf8State
  bomSeen : Bool
deriving Repr, DecidableEq

/-- Initial `TextDecoder` state. -/
def TextDecoderState.init : TextDecoderState := ⟨Utf8State.init, false⟩

/-- BOM filtering of `TextDecoder`: the first code point produced on the
stream is dropped when it is U+FEFF; afterwards the flag is set. -/
def emitBom (bomSeen : Bool) (out : List Nat) : List Nat × Bool :=
  match bomSeen, out with
  | false, c :: rest => (if c = 0xFEFF then rest else c :: rest, true)
  | seen, out => (out, seen)

/-- Decode one byte with `TextDecoder` semantics. -/
def decodeByte (s : TextDecoderState) (b : Nat) : List Nat × TextDecoderState :=
  let r := utf8Step s.utf8 b
  let e := emitBom s.bomSeen r.1
  (e.1, ⟨r.2, e.2⟩)

/-- Decode a byte chunk with `decoder.decode(value, stream true)` semantics:
text produced so far plus the carried decoder state. -/
def decodeBytes (s : TextDecoderState) : List Nat → List Nat × TextDecoderState
  | [] => ([], s)
  | b :: rest =>
    let r := decodeByte s b
    let r2 := decodeBytes r.2 rest
    (r.1 ++ r2.1, r2.2)

/-- JS `string.split(sep)` for the one-character separator LF, on code
points: always returns at least one (possibly empty) piece. -/
def splitOnNl : JsStr → List JsStr
  | [] => [[]]
  | c :: rest =>
    let ps := splitOnNl rest
    if c = 10 then [] :: ps
    else (c :: ps.headD []) :: ps.tail

/-- The code points of the literal `"data:"`. -/
def dataTag : JsStr := str "data:"

/-- JS `line.startsWith("data:")`: exact, case-sensitive, untrimmed. -/
def startsWithData (l : JsStr) : Bool := dataTag.isPrefixOf l

/-- The code points JS `String.prototype.trim` removes (WhiteSpace and
LineTerminator). -/
def isJsWs (c : Nat) : Bool :=
  decide (c = 0x9 ∨ c = 0xA ∨ c = 0xB ∨ c = 0xC ∨ c = 0xD ∨ c = 0x20 ∨
    c = 0xA0 ∨ c = 0x1680 ∨ (0x2000 ≤ c ∧ c ≤ 0x200A) ∨ c = 0x2028 ∨
    c = 0x2029 ∨ c = 0x202F ∨ c = 0x205F ∨ c = 0x3000 ∨ c = 0xFEFF)

/-- JS `s.trim()`: drop whitespace from both ends. -/
def jsTrim (s : JsStr) : JsStr :=
  (((s.dropWhile isJsWs).reverse.dropWhile isJsWs)).reverse

/-- A callback invocation of `queryKnowledgeBaseStream`, in order:
`onMessage`, `onComplete`, or `onError` (carrying the message of the error). -/
inductive Event where
  | message (payload : JsStr)
  | complete
  | error (msg : JsStr)
deriving Repr, DecidableEq

/-- Lines 142-150 of `knowledgebase.ts`: per complete line, if it starts
with `data:` take `line.substring(5).trim()` and call `onMessage` when the
result is non-empty; otherwise do nothing. -/
def processLine (line : JsStr) : List Event :=
  if startsWithData line then
    let content := jsTrim (line.drop 5)
    if content = [] then [] else [Event.message content]
  else []

/-- Lines 136-150 of `knowledgebase.ts`: append freshly decoded text to the
buffer, split on LF, keep the last piece (`lines.pop() or empty`) as the new
buffer, and process every other piece as a complete line. -/
def processText (buffer t : JsStr) : List Event × JsStr :=
  let lines := splitOnNl (buffer ++ t)
  (lines.dropLast.flatMap processLine, lines.getLastD [])

/-- Loop state of the read loop: `TextDecoder` state plus the string
accumulator `buffer`. -/
structure DecSt where
  dec : TextDecoderState
  buffer : JsStr
deriving Repr, DecidableEq

/-- State at loop entry: fresh decoder, empty buffer (lines 122-123). -/
def DecSt.init : DecSt := ⟨TextDecoderState.init, []⟩

/-- One iteration of the read loop for a delivered chunk (lines 133-150):
decode, then run the buffer/split/line logic. -/
def processChunk (st : DecSt) (chunk : List Nat) : List Event × DecSt :=
  let d := decodeBytes st.dec chunk
  let r := processText st.buffer d.1
  (r.1, ⟨d.2, r.2⟩)

/-- The whole read loop over the delivered chunks, collecting the events in
invocation order. -/
def processChunks (st : DecSt) : List (List Nat) → List Event × DecSt
  | [] => ([], st)
  | c :: cs =>
    let r := processChunk st c
    let r2 := processChunks r.2 cs
    (r.1 ++ r2.1, r2.2)

/-- Lines 153-161 of `knowledgebase.ts`: after the loop, if the residual
buffer is non-empty after trimming and starts with `data:` (untrimmed
check), dispatch `buffer.substring(5).trim()` when non-empty. -/
def residualEvents (buffer : JsStr) : List Event :=
  if jsTrim buffer = [] then []
  else if startsWithData buffer then
    let content := jsTrim (buffer.drop 5)
    if content = [] then [] else [Event.message content]
  else []

/-- Model of the `fetch` response as far as `queryKnowledgeBaseStream`
inspects it.  `jsonMessage` describes `response.json()`: `none` means the
body is unparsable (the promise rejects), `some none` means it parses but
has no truthy `message` field, `some (some m)` means it parses with message
`m`.  `body` is `none` when no readable stream is exposed, otherwise the
list of chunks the reader delivers followed by `none` (clean end-of-stream)
or `some m` (a read failure raising an error with message `m`). -/
structure StreamResponse where
  ok : Bool
  status : Nat
  jsonMessage : Option (Option JsStr)
  body : Option (List (List Nat) × Option JsStr)

/-- The template literal of line 114. -/
def requestFailedMsg (status : Nat) : JsStr :=
  str ("请求失败 (" ++ toString status ++ ")")

/-- Lines 104-115 of `knowledgebase.ts`, non-ok branch.  The inner `try`
parses the body and, when a truthy `message` field exists, throws
`Error(errorData.message)`; but that throw happens inside the same `try`,
so the bare `catch` swallows it, and control always reaches the
`throw Error(request-failed(status))` on line 114.  The `Except` value
records what the inner block did; both outcomes fall through to the
status-based message, mirroring the control flow of the source. -/
def notOkThrownMessage (resp : StreamResponse) : JsStr :=
  let inner : Except JsStr Unit :=
    match resp.jsonMessage with
    | none => Except.error (str "SyntaxError")
    | some none => Except.ok ()
    | some (some m) => Except.error m
  match inner with
  | Except.ok _ => requestFailedMsg resp.status
  | Except.error _ => requestFailedMsg resp.status

/-- Modelled from the spec: `getErrorMessage` is imported from
`src/frontend/src/api/request.ts`, which is not among the provided source
files.  Per the error-handling design in the spec, every caught value is
"normalized into a single Error-like value with a human-readable message";
all values caught here are `Error` objects, whose human-readable message is
their own message text, so on that message the normalization is the
identity. -/
def getErrorMessage (m : JsStr) : JsStr := m

/-- Lines 95-165 of `knowledgebase.ts`: the full observable behaviour of
`queryKnowledgeBaseStream` on a response, as the ordered list of callback
invocations.  Note the source order on clean end-of-stream: the `done`
branch calls `onComplete()` and breaks, and only then (lines 153-161) is
the residual buffer inspected. -/
def queryKnowledgeBaseStream (resp : StreamResponse) : List Event :=
  if resp.ok = false then
    [Event.error (getErrorMessage (notOkThrownMessage resp))]
  else
    match resp.body with
    | none => [Event.error (getErrorMessage (str "无法获取响应流"))]
    | some (chunks, readFailure) =>
      let r := processChunks DecSt.init chunks
      match readFailure with
      | some m => r.1 ++ [Event.error (getErrorMessage m)]
      | none => r.1 ++ [Event.complete] ++ residualEvents r.2.buffer

/-- The payloads of the `onMessage` invocations, in order. -/
def messagesOf (l : List Event) : List JsStr :=
  l.filterMap fun e =>
    match e with
    | Event.message s => some s
    | _ => none

/-- Terminal callbacks: `onComplete` and `onError`. -/
def isTerminal : Event → Bool
  | Event.complete => true
  | Event.error _ => true
  | Event.message _ => false

/-- The events that occur after the first `onError` invocation (empty when
no `onError` occurs). -/
def afterError : List Event → List Event
  | [] => []
  | Event.error _ :: rest => rest
  | _ :: rest => afterError rest

/-- Whether `a` occurs strictly before some later occurrence of `b`. -/
def occursBefore (a b : Event) : List Event → Bool
  | [] => false
  | x :: xs => if x = a then xs.contains b else occursBefore a b xs

/-- Character-by-character reformulation of the buffer/split/dispatch logic
of `processText`; used to prove composition laws. -/
def feedChars (buffer : JsStr) : JsStr → List Event × JsStr
  | [] => ([], buffer)
  | c :: t =>
    if c = 10 then
      let r := feedChars [] t
      (processLine buffer ++ r.1, r.2)
    else feedChars (buffer ++ [c]) t

theorem decodeBytes_append (s : TextDecoderState) (a b : List Nat) :
    decodeBytes s (a ++ b) =
      ((decodeBytes s a).1 ++ (decodeBytes (decodeBytes s a).2 b).1,
        (decodeBytes (decodeBytes s a).2 b).2) := by
  induction a generalizing s with
  | nil => simp [decodeBytes]
  | cons x xs ih => simp [decodeBytes, ih]

theorem splitOnNl_ne_nil (s : JsStr) : splitOnNl s ≠ [] := by
  cases s with
  | nil => simp [splitOnNl]
  | cons c rest =>
    simp only [splitOnNl]
    split <;> simp

theorem getLastD_mem {α : Type} : ∀ (l : List α) (d : α), l ≠ [] → l.getLastD d ∈ l := by
  intro l
  induction l with
  | nil => intro d h; exact absurd rfl h
  | cons a t ih =>
    intro d _
    rw [List.getLastD_cons]
    cases t with
    | nil => simp [List.getLastD]
    | cons b u => exact List.mem_cons_of_mem a (ih a (by simp))

theorem headD_mem {α : Type} (l : List α) (d : α) (h : l ≠ []) : l.headD d ∈ l := by
  cases l with
  | nil => exact absurd rfl h
  | cons a t => simp

theorem not_nl_of_mem_splitOnNl : ∀ (s : JsStr), ∀ l ∈ splitOnNl s, (10 : Nat) ∉ l := by
  intro s
  induction s with
  | nil =>
    intro l hl
    simp [splitOnNl] at hl
    simp [hl]
  | cons c rest ih =>
    intro l hl
    by_cases hc : c = 10
    · subst hc
      simp [splitOnNl] at hl
      rcases hl with hl | hl
      · simp [hl]
      · exact ih l hl
    · simp [splitOnNl, hc] at hl
      rcases hl with hl | hl
      · subst hl
        intro hm
        rcases List.mem_cons.mp hm with h10 | h10
        · exact hc h10.symm
        · rcases hne : splitOnNl rest with _ | ⟨a, as⟩
          · exact absurd hne (splitOnNl_ne_nil rest)
          · rw [hne] at h10
            simp at h10
            exact ih a (by rw [hne]; exact List.mem_cons_self a as) h10
      · exact ih l (List.tail_subset _ hl)

theorem splitOnNl_eq_single {s : JsStr} (h : (10 : Nat) ∉ s) : splitOnNl s = [s] := by
  induction s with
  | nil => rfl
  | cons c rest ih =>
    have hc : c ≠ 10 := by
      intro e
      exact h (by simp [e])
    have hr : (10 : Nat) ∉ rest := fun hm => h (List.mem_cons_of_mem _ hm)
    simp [splitOnNl, hc, ih hr]

theorem splitOnNl_append {x : JsStr} (y : JsStr) (h : (10 : Nat) ∉ x) :
    splitOnNl (x ++ y) = (x ++ (splitOnNl y).headD []) :: (splitOnNl y).tail := by
  induction x with
  | nil =>
    rcases hne : splitOnNl y with _ | ⟨a, as⟩
    · exact absurd hne (splitOnNl_ne_nil y)
    · simp [hne]
  | cons c xs ih =>
    have hc : c ≠ 10 := by
      intro e
      exact h (by simp [e])
    have hx : (10 : Nat) ∉ xs := fun hm => h (List.mem_cons_of_mem _ hm)
    simp [splitOnNl, hc, ih hx]

theorem processText_eq_feedChars {buffer : JsStr} (h : (10 : Nat) ∉ buffer) (t : JsStr) :
    processText buffer t = feedChars buffer t := by
  induction t generalizing buffer with
  | nil =>
    simp [processText, feedChars, splitOnNl_eq_single h]
  | cons c t ih =>
    by_cases hc : c = 10
    · subst hc
      have key : splitOnNl (buffer ++ 10 :: t) = buffer :: splitOnNl t := by
        rw [splitOnNl_append _ h]
        rcases hne : splitOnNl t with _ | ⟨a, as⟩
        · exact absurd hne (splitOnNl_ne_nil t)
        · simp [splitOnNl, hne]
      have hfeed : processText [] t = feedChars [] t := ih (by simp)
      simp only [processText, List.nil_append] at hfeed
      rcases hne : splitOnNl t with _ | ⟨a, as⟩
      · exact absurd hne (splitOnNl_ne_nil t)
      · rw [hne] at hfeed
        simp only [processText]
        rw [key, hne]
        simp only [feedChars, if_pos rfl]
        rw [← hfeed]
        cases as with
        | nil => simp [List.getLastD]
        | cons b bs => simp [List.getLastD]
    · have step : buffer ++ c :: t = (buffer ++ [c]) ++ t := by simp
      have h2 : (10 : Nat) ∉ buffer ++ [c] := by
        intro hm
        rcases List.mem_append.mp hm with hm | hm
        · exact h hm
        · simp at hm
          exact hc hm.symm
      calc processText buffer (c :: t)
          = processText (buffer ++ [c]) t := by
            simp only [processText]
            rw [step]
        _ = feedChars (buffer ++ [c]) t := ih h2
        _ = feedChars buffer (c :: t) := by simp [feedChars, hc]

theorem feedChars_append (buffer t1 t2 : JsStr) :
    feedChars buffer (t1 ++ t2) =
      ((feedChars buffer t1).1 ++ (feedChars (feedChars buffer t1).2 t2).1,
        (feedChars (feedChars buffer t1).2 t2).2) := by
  induction t1 generalizing buffer with
  | nil => simp [feedChars]
  | cons c t ih =>
    by_cases hc : c = 10
    · subst hc
      simp [feedChars, ih]
    · simp [feedChars, hc, ih]

theorem feedChars_of_not_nl {t : JsStr} (h : (10 : Nat) ∉ t) (buffer : JsStr) :
    feedChars buffer t = ([], buffer ++ t) := by
  induction t generalizing buffer with
  | nil => simp [feedChars]
  | cons c t ih =>
    have hc : c ≠ 10 := by
      intro e
      exact h (by simp [e])
    have ht : (10 : Nat) ∉ t := fun hm => h (List.mem_cons_of_mem _ hm)
    simp [feedChars, hc, ih ht]

theorem not_nl_processText_snd (buffer t : JsStr) :
    (10 : Nat) ∉ (processText buffer t).2 := by
  have hm : (processText buffer t).2 ∈ splitOnNl (buffer ++ t) :=
    getLastD_mem _ _ (splitOnNl_ne_nil _)
  exact not_nl_of_mem_splitOnNl _ _ hm

theorem not_nl_feedChars_snd {buffer : JsStr} (h : (10 : Nat) ∉ buffer) (t : JsStr) :
    (10 : Nat) ∉ (feedChars buffer t).2 := by
  rw [← processText_eq_feedChars h]
  exact not_nl_processText_snd buffer t

theorem processChunk_append {st : DecSt} (h : (10 : Nat) ∉ st.buffer) (c1 c2 : List Nat) :
    processChunk st (c1 ++ c2) =
      ((processChunk st c1).1 ++ (processChunk (processChunk st c1).2 c2).1,
        (processChunk (processChunk st c1).2 c2).2) := by
  have e1 : processChunk st c1 =
      ((feedChars st.buffer (decodeBytes st.dec c1).1).1,
        ⟨(decodeBytes st.dec c1).2, (feedChars st.buffer (decodeBytes st.dec c1).1).2⟩) := by
    simp only [processChunk]
    rw [processText_eq_feedChars h]
  have hb2 : (10 : Nat) ∉ (feedChars st.buffer (decodeBytes st.dec c1).1).2 :=
    not_nl_feedChars_snd h _
  rw [e1]
  simp only [processChunk]
  rw [decodeBytes_append, processText_eq_feedChars h, processText_eq_feedChars hb2,
    feedChars_append]

theorem not_nl_processChunk_buffer (st : DecSt) (c : List Nat) :
    (10 : Nat) ∉ (processChunk st c).2.buffer := by
  simp only [processChunk]
  exact not_nl_processText_snd _ _

theorem processChunks_eq_flatten {st : DecSt} (h : (10 : Nat) ∉ st.buffer)
    (cs : List (List Nat)) :
    processChunks st cs = processChunk st cs.flatten := by
  induction cs generalizing st with
  | nil =>
    simp only [processChunks, List.flatten_nil, processChunk, decodeBytes]
    rw [processText_eq_feedChars h]
    simp [feedChars]
  | cons c cs ih =>
    rw [List.flatten_cons, processChunk_append h]
    simp [processChunks, ih (not_nl_processChunk_buffer st c)]

theorem processChunks_singleton (st : DecSt) (c : List Nat) :
    processChunks st [c] = processChunk st c := by
  simp [processChunks]

theorem mem_processLine {l : JsStr} {e : Event} (h : e ∈ processLine l) :
    startsWithData l = true ∧ e = Event.message (jsTrim (l.drop 5)) ∧
      jsTrim (l.drop 5) ≠ [] := by
  by_cases h1 : startsWithData l
  · by_cases h2 : jsTrim (l.drop 5) = []
    · simp [processLine, h1, h2] at h
    · simp [processLine, h1, h2] at h
      exact ⟨h1, h, h2⟩
  · simp [processLine, h1] at h

theorem mem_residualEvents {b : JsStr} {e : Event} (h : e ∈ residualEvents b) :
    startsWithData b = true ∧ e = Event.message (jsTrim (b.drop 5)) ∧
      jsTrim (b.drop 5) ≠ [] := by
  by_cases h0 : jsTrim b = []
  · simp [residualEvents, h0] at h
  · by_cases h1 : startsWithData b
    · by_cases h2 : jsTrim (b.drop 5) = []
      · simp [residualEvents, h0, h1, h2] at h
      · simp [residualEvents, h0, h1, h2] at h
        exact ⟨h1, h, h2⟩
    · simp [residualEvents, h0, h1] at h

theorem mem_processChunks_fst {e : Event} :
    ∀ (cs : List (List Nat)) (st : DecSt), e ∈ (processChunks st cs).1 →
      ∃ l, (10 : Nat) ∉ l ∧ e ∈ processLine l := by
  intro cs
  induction cs with
  | nil =>
    intro st h
    simp [processChunks] at h
  | cons c cs ih =>
    intro st h
    rcases List.mem_append.mp h with h | h
    · simp only [processChunk, processText] at h
      rcases List.mem_flatMap.mp h with ⟨l, hl, hpl⟩
      refine ⟨l, ?_, hpl⟩
      have hmem : l ∈ splitOnNl (st.buffer ++ (decodeBytes st.dec c).1) :=
        List.dropLast_subset _ hl
      exact not_nl_of_mem_splitOnNl _ _ hmem
    · exact ih _ h

theorem isTerminal_false_of_mem_processChunks {st : DecSt} {e : Event}
    (cs : List (List Nat)) (h : e ∈ (processChunks st cs).1) : isTerminal e = false := by
  rcases mem_processChunks_fst cs st h with ⟨l, _, hpl⟩
  rcases mem_processLine hpl with ⟨_, he, _⟩
  subst he
  rfl

theorem isTerminal_false_of_mem_residual {b : JsStr} {e : Event}
    (h : e ∈ residualEvents b) : isTerminal e = false := by
  rcases mem_residualEvents h with ⟨_, he, _⟩
  subst he
  rfl

theorem afterError_append {l : List Event} (r : List Event)
    (h : ∀ m, Event.error m ∉ l) :
    afterError (l ++ r) = afterError r := by
  induction l with
  | nil => rfl
  | cons x t ih =>
    have hx : ∀ m, Event.error m ∉ t := fun m hm => h m (List.mem_cons_of_mem _ hm)
    cases x with
    | message s => simpa [afterError] using ih hx
    | complete => simpa [afterError] using ih hx
    | error m => exact absurd (List.mem_cons_self _ _) (h m)

theorem afterError_eq_nil {l : List Event} (h : ∀ m, Event.error m ∉ l) :
    afterError l = [] := by
  have h2 := afterError_append [] h
  simpa using h2

theorem countP_isTerminal_zero {l : List Event} (h : ∀ e ∈ l, isTerminal e = false) :
    l.countP isTerminal = 0 := by
  rw [List.countP_eq_zero]
  intro a ha
  simp [h a ha]

theorem dropWhile_dropWhile {α : Type} (p : α → Bool) (l : List α) :
    (l.dropWhile p).dropWhile p = l.dropWhile p := by
  induction l with
  | nil => rfl
  | cons a t ih =>
    by_cases h : p a
    · simp [List.dropWhile_cons, h, ih]
    · simp [List.dropWhile_cons, h]

/-- Right-trim only; `jsTrim` is this composed with a left `dropWhile`. -/
def trimEnd (s : JsStr) : JsStr := (s.reverse.dropWhile isJsWs).reverse

theorem jsTrim_eq_trimEnd (s : JsStr) : jsTrim s = trimEnd (s.dropWhile isJsWs) := rfl

theorem trimEnd_front (s : JsStr) : trimEnd s <+: s := by
  have h : s.reverse.dropWhile isJsWs <:+ s.reverse := List.dropWhile_suffix _
  have h2 := List.reverse_prefix.mpr h
  simpa using h2

theorem dropWhile_eq_self_of_front {s t : JsStr} (hp : t <+: s)
    (hs : s.dropWhile isJsWs = s) : t.dropWhile isJsWs = t := by
  cases t with
  | nil => rfl
  | cons c u =>
    rcases hp with ⟨r, hr⟩
    subst hr
    by_cases hc : isJsWs c
    · rw [List.cons_append, List.dropWhile_cons, if_pos hc] at hs
      have hlen := congrArg List.length hs
      have hle : ((u ++ r).dropWhile isJsWs).length ≤ (u ++ r).length :=
        (List.dropWhile_sublist _).length_le
      simp only [List.length_cons] at hlen
      omega
    · simp [List.dropWhile_cons, hc]

theorem dropWhile_jsTrim (s : JsStr) : (jsTrim s).dropWhile isJsWs = jsTrim s := by
  rw [jsTrim_eq_trimEnd]
  exact dropWhile_eq_self_of_front (trimEnd_front _) (dropWhile_dropWhile _ _)

theorem trimEnd_trimEnd (s : JsStr) : trimEnd (trimEnd s) = trimEnd s := by
  unfold trimEnd
  rw [List.reverse_reverse, dropWhile_dropWhile]

theorem jsTrim_jsTrim (s : JsStr) : jsTrim (jsTrim s) = jsTrim s := by
  rw [jsTrim_eq_trimEnd (jsTrim s), dropWhile_jsTrim, jsTrim_eq_trimEnd s, trimEnd_trimEnd]

theorem jsTrim_subset (s : JsStr) : jsTrim s ⊆ s := by
  intro x hx
  have h1 : jsTrim s ⊆ s.dropWhile isJsWs := by
    rw [jsTrim_eq_trimEnd]
    exact (trimEnd_front _).subset
  exact (List.dropWhile_sublist _).subset (h1 hx)

theorem not_nl_processChunks_buffer :
    ∀ (cs : List (List Nat)) (st : DecSt), (10 : Nat) ∉ st.buffer →
      (10 : Nat) ∉ (processChunks st cs).2.buffer := by
  intro cs
  induction cs with
  | nil =>
    intro st h
    simpa [processChunks] using h
  | cons c cs ih =>
    intro st _
    simp only [processChunks]
    exact ih _ (not_nl_processChunk_buffer st c)

theorem str_append (a b : String) : str (a ++ b) = str a ++ str b := by
  simp [str, String.toList]

theorem startsWithData_cons_ne {c : Nat} (u : JsStr) (hc : c ≠ 100) :
    startsWithData (c :: u) = false := by
  rw [startsWithData, Bool.eq_false_iff]
  intro hp
  rw [ List.isPrefixOf_iff_prefix] at hp
  rcases hp with ⟨r, hr⟩
  have hd : dataTag = 100 :: [97, 116, 97, 58] := by decide
  rw [hd, List.cons_append] at hr
  injection hr with hh _
  exact hc hh.symm

theorem processLine_eq_nil_of_not_data {l : JsStr} (h : startsWithData l = false) :
    processLine l = [] := by
  simp [processLine, h]

theorem residualEvents_eq_nil_of_not_data {b : JsStr} (h : startsWithData b = false) :
    residualEvents b = [] := by
  simp [residualEvents, h]

theorem jsTrim_ne_nil_of_head {c : Nat} (rest : JsStr) (hc : isJsWs c = false) :
    jsTrim (c :: rest) ≠ [] := by
  intro h
  simp only [jsTrim, List.dropWhile_cons, hc, Bool.false_eq_true, if_false] at h
  rw [List.reverse_eq_nil_iff, List.dropWhile_eq_nil_iff] at h
  have hcmem : c ∈ (c :: rest).reverse := by simp
  have := h c hcmem
  rw [hc] at this
  exact Bool.false_ne_true this

theorem head_of_startsWithData {buf : JsStr} (h : startsWithData buf = true) :
    ∃ rest, buf = 100 :: rest := by
  rw [startsWithData, List.isPrefixOf_iff_prefix] at h
  rcases h with ⟨r, hr⟩
  refine ⟨97 :: 116 :: 97 :: 58 :: r, ?_⟩
  rw [← hr]
  rfl

theorem residualEvents_of_data {buf p : JsStr} (h1 : startsWithData buf = true)
    (h2 : jsTrim (buf.drop 5) = p) (h3 : p ≠ []) :
    residualEvents buf = [Event.message p] := by
  rcases head_of_startsWithData h1 with ⟨rest, hb⟩
  have hne : jsTrim buf ≠ [] := by
    rw [hb]
    exact jsTrim_ne_nil_of_head rest (by decide)
  simp [residualEvents, hne, h1, h2, h3]

theorem occursBefore_append_of_not_mem {a b : Event} {l : List Event} (r : List Event)
    (h : a ∉ l) : occursBefore a b (l ++ r) = occursBefore a b r := by
  induction l with
  | nil => rfl
  | cons x t ih =>
    have hx : ¬ x = a := fun e => h (e ▸ List.mem_cons_self x t)
    simp only [List.cons_append, occursBefore, if_neg hx]
    exact ih fun hm => h (List.mem_cons_of_mem _ hm)

theorem payload_shape {l p : JsStr} (hnl : (10 : Nat) ∉ l)
    (hp : p = jsTrim (l.drop 5)) (hne : p ≠ []) :
    p ≠ [] ∧ (10 : Nat) ∉ p ∧ jsTrim p = p := by
  refine ⟨hne, ?_, ?_⟩
  · intro hm
    rw [hp] at hm
    exact hnl (List.drop_subset _ _ (jsTrim_subset _ hm))
  · rw [hp, jsTrim_jsTrim]

theorem feedChars_flatMap_lines :
    ∀ (lns : List JsStr), (∀ l ∈ lns, (10 : Nat) ∉ l) →
      feedChars [] (lns.flatMap (fun l => l ++ [10])) = (lns.flatMap processLine, []) := by
  intro lns
  induction lns with
  | nil =>
    intro _
    simp [feedChars]
  | cons l rest ih =>
    intro h
    have hl : (10 : Nat) ∉ l := h l (List.mem_cons_self _ _)
    have hrest := ih fun x hm => h x (List.mem_cons_of_mem _ hm)
    have e1 : feedChars [] (l ++ [10]) = (processLine l, []) := by
      rw [feedChars_append, feedChars_of_not_nl hl]
      simp [feedChars]
    rw [List.flatMap_cons, feedChars_append, e1]
    simp [hrest]

/-- C1 (counterexample): for a stream whose only chunk is `data:payload`
with no trailing newline, the code invokes `onComplete` first and the
residual `onMessage("payload")` after it, so no `onMessage("payload")`
precedes `onComplete` — the claimed order does not hold. -/
theorem c1_counterexample :
    queryKnowledgeBaseStream ⟨true, 200, none, some ([str "data:payload"], none)⟩ =
        [Event.complete, Event.message (str "payload")] ∧
      occursBefore (Event.message (str "payload")) Event.complete
        (queryKnowledgeBaseStream ⟨true, 200, none, some ([str "data:payload"], none)⟩) =
        false := by
  decide

/-- C1 (amended): for every stream whose residual (newline-unterminated)
final line starts with `data:` and trims to a non-empty payload,
`onMessage(payload)` is still invoked and `onComplete` is invoked exactly
once, but the residual dispatch happens after `onComplete`, not before:
the run is the loop messages, then `onComplete`, then the residual
`onMessage`. -/
theorem c1_amended (status : Nat) (jm : Option (Option JsStr))
    (chunks : List (List Nat)) (p : JsStr)
    (h1 : startsWithData (processChunks DecSt.init chunks).2.buffer = true)
    (h2 : jsTrim ((processChunks DecSt.init chunks).2.buffer.drop 5) = p)
    (h3 : p ≠ []) :
    queryKnowledgeBaseStream ⟨true, status, jm, some (chunks, none)⟩ =
        (processChunks DecSt.init chunks).1 ++ [Event.complete, Event.message p] ∧
      (queryKnowledgeBaseStream ⟨true, status, jm, some (chunks, none)⟩).countP
          isTerminal = 1 ∧
      occursBefore Event.complete (Event.message p)
        (queryKnowledgeBaseStream ⟨true, status, jm, some (chunks, none)⟩) = true := by
  have hres : residualEvents (processChunks DecSt.init chunks).2.buffer =
      [Event.message p] := residualEvents_of_data h1 h2 h3
  have hrun : queryKnowledgeBaseStream ⟨true, status, jm, some (chunks, none)⟩ =
      (processChunks DecSt.init chunks).1 ++ [Event.complete, Event.message p] := by
    simp [queryKnowledgeBaseStream, hres]
  have hcompl : Event.complete ∉ (processChunks DecSt.init chunks).1 := by
    intro hm
    have ht := isTerminal_false_of_mem_processChunks chunks hm
    simp [isTerminal] at ht
  refine ⟨hrun, ?_, ?_⟩
  · rw [hrun, List.countP_append,
      countP_isTerminal_zero fun e he => isTerminal_false_of_mem_processChunks chunks he]
    rfl
  · rw [hrun, occursBefore_append_of_not_mem _ hcompl]
    simp [occursBefore]

theorem c1_amended_witness :
    queryKnowledgeBaseStream ⟨true, 200, none, some ([str "data:payload"], none)⟩ =
        (processChunks DecSt.init [str "data:payload"]).1 ++
          [Event.complete, Event.message (str "payload")] ∧
      (queryKnowledgeBaseStream
          ⟨true, 200, none, some ([str "data:payload"], none)⟩).countP isTerminal = 1 ∧
      occursBefore Event.complete (Event.message (str "payload"))
        (queryKnowledgeBaseStream ⟨true, 200, none, some ([str "data:payload"], none)⟩) =
        true :=
  c1_amended 200 none [str "data:payload"] (str "payload") (by decide) (by decide)
    (by decide)

/-- C2 (code bug): for a non-ok response with status 500 whose JSON body
carries message `quota exceeded`, the code invokes `onError` with message
`请求失败 (500)` — not `quota exceeded` — because the
`throw new Error(errorData.message)` on line 109 is swallowed by the bare
`catch` of the very `try` that contains it; `onMessage` and `onComplete`
are not invoked, and exactly one terminal callback occurs. -/
theorem c2_swallowed_json_message :
    queryKnowledgeBaseStream ⟨false, 500, some (some (str "quota exceeded")), none⟩ =
        [Event.error (str "请求失败 (500)")] ∧
      messagesOf
          (queryKnowledgeBaseStream
            ⟨false, 500, some (some (str "quota exceeded")), none⟩) = [] ∧
      (queryKnowledgeBaseStream
          ⟨false, 500, some (some (str "quota exceeded")), none⟩).countP isTerminal = 1 ∧
      queryKnowledgeBaseStream ⟨false, 500, some (some (str "quota exceeded")), none⟩ ≠
        [Event.error (str "quota exceeded")] := by
  refine ⟨by decide, by decide, by decide, by decide⟩

/-- C3: for every byte sequence and every way of splitting it into chunks,
the `onMessage` payload sequence equals the one produced when the same
bytes arrive as one single chunk (with the same end-of-stream outcome). -/
theorem c3_chunking_invariance (chunkss : List (List Nat)) (status : Nat)
    (jm : Option (Option JsStr)) (rf : Option JsStr) :
    messagesOf (queryKnowledgeBaseStream ⟨true, status, jm, some (chunkss, rf)⟩) =
      messagesOf
        (queryKnowledgeBaseStream ⟨true, status, jm, some ([chunkss.flatten], rf)⟩) := by
  have h1 : processChunks DecSt.init chunkss = processChunk DecSt.init chunkss.flatten :=
    processChunks_eq_flatten (by simp [DecSt.init]) _
  have h2 : processChunks DecSt.init [chunkss.flatten] =
      processChunk DecSt.init chunkss.flatten := processChunks_singleton _ _
  simp [queryKnowledgeBaseStream, h1, h2]

/-- C4: every stream invokes exactly one terminal callback (`onComplete`
or `onError`), and nothing at all is invoked after `onError`. -/
theorem c4_single_terminal (resp : StreamResponse) :
    (queryKnowledgeBaseStream resp).countP isTerminal = 1 ∧
      afterError (queryKnowledgeBaseStream resp) = [] := by
  unfold queryKnowledgeBaseStream
  by_cases hok : resp.ok = false
  · rw [if_pos hok]
    exact ⟨rfl, rfl⟩
  · rw [if_neg hok]
    rcases hb : resp.body with _ | ⟨chunks, rf⟩
    · exact ⟨rfl, rfl⟩
    · have hmsgs : ∀ e ∈ (processChunks DecSt.init chunks).1, isTerminal e = false :=
        fun e he => isTerminal_false_of_mem_processChunks chunks he
      have hnoerr : ∀ m, Event.error m ∉ (processChunks DecSt.init chunks).1 := by
        intro m hm
        have ht := hmsgs _ hm
        simp [isTerminal] at ht
      rcases rf with _ | m
      · constructor
        · rw [List.countP_append, List.countP_append, countP_isTerminal_zero hmsgs,
            countP_isTerminal_zero fun e he => isTerminal_false_of_mem_residual he]
          rfl
        · apply afterError_eq_nil
          intro m hm
          rcases List.mem_append.mp hm with hm | hm
          · rcases List.mem_append.mp hm with hm | hm
            · exact hnoerr m hm
            · simp at hm
          · have ht := isTerminal_false_of_mem_residual hm
            simp [isTerminal] at ht
      · constructor
        · rw [List.countP_append, countP_isTerminal_zero hmsgs]
          rfl
        · rw [afterError_append _ hnoerr]
          rfl

/-- C5: each complete line is handled by the `data:` rule — strip the
prefix, trim, dispatch iff non-empty — synchronously and in input order;
the chunk `data:` followed by spaces and a newline yields no `onMessage`. -/
theorem c5_line_dispatch (lns : List JsStr) (h : ∀ l ∈ lns, (10 : Nat) ∉ l) :
    processText [] (lns.flatMap (fun l => l ++ [10])) = (lns.flatMap processLine, []) ∧
      messagesOf
        (queryKnowledgeBaseStream ⟨true, 200, none, some ([str "data:   \n"], none)⟩) =
        [] := by
  refine ⟨?_, by decide⟩
  rw [processText_eq_feedChars (by simp)]
  exact feedChars_flatMap_lines lns h

theorem c5_witness :
    processText []
        (([str "data: hello", str "data:   ", str "event: x"]).flatMap
          (fun l => l ++ [10])) =
      ([Event.message (str "hello")], []) := by
  have h := c5_line_dispatch [str "data: hello", str "data:   ", str "event: x"]
    (by decide)
  rw [h.1]
  decide

/-- C6: a stream consisting only of non-`data:` lines produces zero
`onMessage` calls and exactly one `onComplete` call. -/
theorem c6_nondata_lines (status : Nat) (jm : Option (Option JsStr))
    (chunks : List (List Nat))
    (h : ∀ l ∈ splitOnNl (decodeBytes TextDecoderState.init chunks.flatten).1,
      startsWithData l = false) :
    messagesOf (queryKnowledgeBaseStream ⟨true, status, jm, some (chunks, none)⟩) = [] ∧
      (queryKnowledgeBaseStream ⟨true, status, jm, some (chunks, none)⟩).count
        Event.complete = 1 := by
  have hj : processChunks DecSt.init chunks = processChunk DecSt.init chunks.flatten :=
    processChunks_eq_flatten (by simp [DecSt.init]) _
  have hev : (processChunk DecSt.init chunks.flatten).1 = [] := by
    have e : (processChunk DecSt.init chunks.flatten).1 =
        (splitOnNl
          ([] ++ (decodeBytes TextDecoderState.init chunks.flatten).1)).dropLast.flatMap
          processLine := rfl
    rw [e, List.nil_append, List.flatMap_eq_nil_iff]
    intro l hl
    exact processLine_eq_nil_of_not_data (h l (List.dropLast_subset _ hl))
  have hbuf : residualEvents (processChunk DecSt.init chunks.flatten).2.buffer = [] := by
    have e : (processChunk DecSt.init chunks.flatten).2.buffer =
        (splitOnNl
          ([] ++ (decodeBytes TextDecoderState.init chunks.flatten).1)).getLastD [] := rfl
    apply residualEvents_eq_nil_of_not_data
    rw [e, List.nil_append]
    exact h _ (getLastD_mem _ _ (splitOnNl_ne_nil _))
  have hrun : queryKnowledgeBaseStream ⟨true, status, jm, some (chunks, none)⟩ =
      [Event.complete] := by
    simp [queryKnowledgeBaseStream, hj, hev, hbuf]
  rw [hrun]
  exact ⟨rfl, rfl⟩

theorem c6_witness :
    messagesOf
        (queryKnowledgeBaseStream
          ⟨true, 200, none, some ([str ": comment\n", str "event: x\n\n"], none)⟩) = [] ∧
      (queryKnowledgeBaseStream
          ⟨true, 200, none, some ([str ": comment\n", str "event: x\n\n"], none)⟩).count
        Event.complete = 1 :=
  c6_nondata_lines 200 none [str ": comment\n", str "event: x\n\n"] (by decide)

/-- C7: after every chunk the retained buffer holds at most one partial
line — it never contains a newline — and the new buffer is exactly the
last element of the split. -/
theorem c7_buffer_single_line (chunks : List (List Nat)) :
    (10 : Nat) ∉ (processChunks DecSt.init chunks).2.buffer ∧
      ∀ (st : DecSt) (chunk : List Nat),
        (processChunk st chunk).2.buffer =
          (splitOnNl (st.buffer ++ (decodeBytes st.dec chunk).1)).getLastD [] := by
  exact ⟨not_nl_processChunks_buffer chunks DecSt.init (by simp [DecSt.init]),
    fun st chunk => rfl⟩

/-- C8: a successful response without a readable body yields exactly one
`onError` (before reading anything, as no chunk is consumed), and a
non-success status with an absent or unparsable body yields exactly one
`onError` whose message contains the literal status code. -/
theorem c8_error_paths :
    (∀ (status : Nat) (jm : Option (Option JsStr)),
        queryKnowledgeBaseStream ⟨true, status, jm, none⟩ =
          [Event.error (str "无法获取响应流")]) ∧
      ∀ (status : Nat) (body : Option (List (List Nat) × Option JsStr)),
        queryKnowledgeBaseStream ⟨false, status, none, body⟩ =
            [Event.error (requestFailedMsg status)] ∧
          str (toString status) <:+: requestFailedMsg status := by
  constructor
  · intro status jm
    rfl
  · intro status body
    refine ⟨rfl, str "请求失败 (", str ")", ?_⟩
    rw [requestFailedMsg, str_append, str_append]

/-- C9: the `data:` match is exact and performed on the untrimmed line:
leading whitespace before `data:` or a differently-cased `Data:` yields no
`onMessage`, both for complete lines and for the residual buffer. -/
theorem c9_untrimmed_match (ws line : JsStr) (h1 : ∀ c ∈ ws, isJsWs c = true)
    (h2 : ws ≠ []) :
    processLine (ws ++ dataTag ++ line) = [] ∧
      residualEvents (ws ++ dataTag ++ line) = [] ∧
      processLine (str "Data:" ++ line) = [] ∧
      residualEvents (str "Data:" ++ line) = [] := by
  have hws : startsWithData (ws ++ dataTag ++ line) = false := by
    cases ws with
    | nil => exact absurd rfl h2
    | cons c u =>
      have hc : isJsWs c = true := h1 c (List.mem_cons_self _ _)
      have hc100 : c ≠ 100 := by
        intro e
        rw [e] at hc
        have hf : isJsWs (100 : Nat) = false := by decide
        rw [hf] at hc
        exact Bool.false_ne_true hc
      have e2 : (c :: u) ++ dataTag ++ line = c :: (u ++ dataTag ++ line) := by simp
      rw [e2]
      exact startsWithData_cons_ne _ hc100
  have hD : startsWithData (str "Data:" ++ line) = false := by
    have e2 : str "Data:" ++ line = 68 :: (str "ata:" ++ line) := rfl
    rw [e2]
    exact startsWithData_cons_ne _ (by decide)
  exact ⟨processLine_eq_nil_of_not_data hws, residualEvents_eq_nil_of_not_data hws,
    processLine_eq_nil_of_not_data hD, residualEvents_eq_nil_of_not_data hD⟩

theorem c9_witness :
    processLine ([32] ++ dataTag ++ str " x") = [] ∧
      residualEvents ([32] ++ dataTag ++ str " x") = [] ∧
      processLine (str "Data:" ++ str " x") = [] ∧
      residualEvents (str "Data:" ++ str " x") = [] :=
  c9_untrimmed_match [32] (str " x") (by decide) (by decide)

/-- C10: every payload handed to `onMessage` is non-empty, contains no
newline, and carries no leading or trailing whitespace. -/
theorem c10_message_invariant (resp : StreamResponse) (p : JsStr)
    (h : Event.message p ∈ queryKnowledgeBaseStream resp) :
    p ≠ [] ∧ (10 : Nat) ∉ p ∧ jsTrim p = p := by
  unfold queryKnowledgeBaseStream at h
  by_cases hok : resp.ok = false
  · rw [if_pos hok] at h
    simp at h
  · rw [if_neg hok] at h
    rcases hb : resp.body with _ | ⟨chunks, rf⟩
    · rw [hb] at h
      simp at h
    · rw [hb] at h
      rcases rf with _ | m
      · rcases List.mem_append.mp h with hm | hm
        · rcases List.mem_append.mp hm with hm | hm
          · rcases mem_processChunks_fst chunks DecSt.init hm with ⟨l, hnl, hml⟩
            rcases mem_processLine hml with ⟨_, he, hne⟩
            have hp : p = jsTrim (l.drop 5) := by injection he
            exact payload_shape hnl hp (by rw [hp]; exact hne)
          · simp at hm
        · rcases mem_residualEvents hm with ⟨_, he, hne⟩
          have hp : p = jsTrim ((processChunks DecSt.init chunks).2.buffer.drop 5) := by
            injection he
          exact payload_shape
            (not_nl_processChunks_buffer chunks DecSt.init (by simp [DecSt.init])) hp
            (by rw [hp]; exact hne)
      · rcases List.mem_append.mp h with hm | hm
        · rcases mem_processChunks_fst chunks DecSt.init hm with ⟨l, hnl, hml⟩
          rcases mem_processLine hml with ⟨_, he, hne⟩
          have hp : p = jsTrim (l.drop 5) := by injection he
          exact payload_shape hnl hp (by rw [hp]; exact hne)
        · simp at hm

theorem c10_witness :
    str "hi" ≠ ([] : JsStr) ∧ (10 : Nat) ∉ str "hi" ∧ jsTrim (str "hi") = str "hi" :=
  c10_message_invariant ⟨true, 200, none, some ([str "data: hi\n"], none)⟩ (str "hi")
    (by decide)

end KnowledgeBase
